import Mathlib

/-
Verification of the `tagdiff` tag-comparison tool against its design
specification.

The development shallowly embeds the Python sources:
  * `src/diff/l5x.py`      — streaming structural decoder for the markup
                             encoding (`PreExtractor`), plus the diff engine
                             `compare`;
  * `src/diff/project.py`  — type-closure engine (`find_target_types`),
                             dimension expansion (`expand_dims`) and value
                             resolution (`get_value`) for the text encoding;
  * `src/diff/__main__.py` — driver wiring (the `exclusions` set handed to
                             the report generator).

Python dicts are modelled as association lists without duplicate keys
(insertion order preserved, as in CPython); Python sets of paths are
modelled as duplicate-free lists built with `insertPath`; Python exceptions
are modelled with `Except PyError`.
-/

namespace TagDiff

/-! ## Association-list model of Python dicts -/

/-- First-match lookup, the model of `d[k]` on a duplicate-free
association list. -/
def lookup {K V : Type} [DecidableEq K] : List (K × V) → K → Option V
  | [], _ => none
  | (k', v) :: rest, k => if k' = k then some v else lookup rest k

/-- Key list of an association list, the model of iteration over a dict. -/
def keys {K V : Type} (m : List (K × V)) : List K := m.map Prod.fst

/-- Model of the Python dict assignment `d[k] = v`: overwrite in place when
the key exists, append otherwise. -/
def insertAssoc {K V : Type} [DecidableEq K] : List (K × V) → K → V → List (K × V)
  | [], k, v => [(k, v)]
  | (k', w) :: rest, k, v =>
      if k' = k then (k', v) :: rest else (k', w) :: insertAssoc rest k v

theorem lookup_isSome_iff_mem_keys {K V : Type} [DecidableEq K]
    (m : List (K × V)) (k : K) : (lookup m k).isSome = true ↔ k ∈ keys m := by
  induction m with
  | nil => simp [lookup, keys]
  | cons hd tl ih =>
    obtain ⟨k', v⟩ := hd
    by_cases h : k' = k
    · subst h; simp [lookup, keys]
    · simp only [lookup, if_neg h, keys, List.map_cons, List.mem_cons, ih]
      constructor
      · exact Or.inr
      · rintro (rfl | hm)
        · exact absurd rfl h
        · exact hm

theorem mem_keys_of_lookup_eq_some {K V : Type} [DecidableEq K]
    {m : List (K × V)} {k : K} {v : V} (h : lookup m k = some v) : k ∈ keys m := by
  have := (lookup_isSome_iff_mem_keys m k).mp (by simp [h])
  exact this

theorem lookup_eq_some_of_mem_keys {K V : Type} [DecidableEq K]
    {m : List (K × V)} {k : K} (h : k ∈ keys m) : ∃ v, lookup m k = some v := by
  have := (lookup_isSome_iff_mem_keys m k).mpr h
  exact Option.isSome_iff_exists.mp this

theorem lookup_eq_some_of_mem_nodup {K V : Type} [DecidableEq K]
    {m : List (K × V)} {k : K} {v : V} (hnd : (keys m).Nodup)
    (hmem : (k, v) ∈ m) : lookup m k = some v := by
  induction m with
  | nil => simp at hmem
  | cons hd tl ih =>
    obtain ⟨k', w⟩ := hd
    simp only [keys, List.map_cons, List.nodup_cons] at hnd
    rcases List.mem_cons.mp hmem with h | h
    · rw [Prod.mk.injEq] at h
      obtain ⟨hk, hv⟩ := h
      subst hk; subst hv
      simp [lookup]
    · have hkne : k' ≠ k := by
        intro hkk
        subst hkk
        exact hnd.1 (List.mem_map_of_mem Prod.fst h)
      simp only [lookup, if_neg hkne]
      exact ih hnd.2 h

theorem mem_of_lookup_eq_some {K V : Type} [DecidableEq K]
    {m : List (K × V)} {k : K} {v : V} (h : lookup m k = some v) : (k, v) ∈ m := by
  induction m with
  | nil => simp [lookup] at h
  | cons hd tl ih =>
    obtain ⟨k', w⟩ := hd
    by_cases hk : k' = k
    · subst hk
      have hwv : w = v := by simpa [lookup] using h
      subst hwv
      exact List.mem_cons_self _ _
    · simp only [lookup, if_neg hk] at h
      exact List.mem_cons_of_mem _ (ih h)

/-! ## Diff engine

`compare` appears verbatim in `src/diff/l5x.py`, `src/diff/project.py` and
`src/diff/__main__.py`: iterate the keys of the first mapping, and report a
key whenever the second mapping also holds it with a different value
(`KeyError` on a missing counterpart key is swallowed). -/

/-- Model of `compare(a, b)`: the set of keys of `a` whose value differs
from their value in `b`, keys missing from `b` ignored. -/
def compare {K V : Type} [DecidableEq K] [DecidableEq V]
    (a b : List (K × V)) : List K :=
  (a.filter fun kv =>
    match lookup b kv.1 with
    | some w => decide (kv.2 ≠ w)
    | none => false).map Prod.fst

theorem mem_compare_iff {K V : Type} [DecidableEq K] [DecidableEq V]
    {a b : List (K × V)} (hnd : (keys a).Nodup) (k : K) :
    k ∈ compare a b ↔
      k ∈ keys a ∧ k ∈ keys b ∧ lookup a k ≠ lookup b k := by
  constructor
  · intro h
    obtain ⟨⟨k', v⟩, hmem, hk⟩ := List.mem_map.mp h
    have hfilt := List.mem_filter.mp hmem
    cases hk
    have hcond := hfilt.2
    cases hb : lookup b k' with
    | none => simp [hb] at hcond
    | some w =>
      simp only [hb, decide_eq_true_eq] at hcond
      have ha : lookup a k' = some v := lookup_eq_some_of_mem_nodup hnd hfilt.1
      exact ⟨mem_keys_of_lookup_eq_some ha, mem_keys_of_lookup_eq_some hb,
        by simp [ha, hb, hcond]⟩
  · rintro ⟨hka, hkb, hne⟩
    obtain ⟨v, hv⟩ := lookup_eq_some_of_mem_keys hka
    obtain ⟨w, hw⟩ := lookup_eq_some_of_mem_keys hkb
    refine List.mem_map.mpr ⟨(k, v), List.mem_filter.mpr ⟨mem_of_lookup_eq_some hv, ?_⟩, rfl⟩
    have hvw : v ≠ w := by
      intro hvweq
      exact hne (by simp [hv, hw, hvweq])
    simp [hw, hvw]

/-! ## Tag paths of the markup decoder (`src/diff/l5x.py`)

A `Tag` namedtuple field may be `None` while the decoder is mid-stream, so
`scope` and `name` are `Option String`. A member is either a member name
or a parsed array-index tuple. -/

/-- One entry of the decoder's member-path stack: a member name, or an
array-index tuple parsed from an `Element` node's `Index` attribute. -/
inductive Member
  | named (s : String)
  | indices (t : List Int)
deriving DecidableEq

/-- Model of the `Tag` namedtuple of `src/diff/l5x.py`. -/
structure XTag where
  scope : Option String
  name : Option String
  members : List Member
deriving DecidableEq

/-- Model of `src/diff/__main__.py` line 47: the exclusions set handed to
the report generator is `compare` applied to the two files'
`no_data` mappings (raw bytes are modelled as lists of byte values). -/
def exclusions (na nb : List (XTag × List Nat)) : List XTag :=
  compare na nb

/-- Claim C3: for two `{TagPath → value}` mappings, `compare` returns
exactly the keys present in both whose values differ; a key present in only
one mapping is never reported. -/
theorem compare_diff_within_intersection {K V : Type} [DecidableEq K] [DecidableEq V]
    (a b : List (K × V)) (hnd : (keys a).Nodup) (k : K) :
    k ∈ compare a b ↔
      k ∈ keys a ∧ k ∈ keys b ∧ lookup a k ≠ lookup b k :=
  mem_compare_iff hnd k

/-- Witness for C3 at a concrete pair of mappings. -/
theorem compare_diff_within_intersection_witness :
    ("x" ∈ compare [("x", 1), ("y", 2)] [("x", 3)] ↔
      "x" ∈ keys [("x", 1), ("y", 2)] ∧ "x" ∈ keys [("x", 3)] ∧
        lookup [("x", 1), ("y", 2)] "x" ≠ lookup [("x", 3)] "x") :=
  compare_diff_within_intersection [("x", 1), ("y", 2)] [("x", 3)] (by decide) "x"

/-- Claim C2 counterexample: a tag present and undecorated in both files
with identical raw bytes lies in the intersection of the two `no_data` key
sets but not in the exclusions set, so the exclusions set is not that
intersection. -/
theorem exclusions_not_intersection_cex :
    ¬ ((⟨some "Controller", some "T1", []⟩ : XTag) ∈
          exclusions [(⟨some "Controller", some "T1", []⟩, [0])]
            [(⟨some "Controller", some "T1", []⟩, [0])] ↔
        (⟨some "Controller", some "T1", []⟩ : XTag) ∈
            keys [((⟨some "Controller", some "T1", []⟩ : XTag), [0])] ∧
          (⟨some "Controller", some "T1", []⟩ : XTag) ∈
            keys [((⟨some "Controller", some "T1", []⟩ : XTag), [0])]) := by
  decide

/-- Claim C2 (amended): the exclusions set contains exactly the `TagPath`
keys present in both files' `no_data` mappings whose raw byte values
differ. -/
theorem exclusions_characterization (na nb : List (XTag × List Nat))
    (hnd : (keys na).Nodup) (t : XTag) :
    t ∈ exclusions na nb ↔
      t ∈ keys na ∧ t ∈ keys nb ∧ lookup na t ≠ lookup nb t :=
  mem_compare_iff hnd t

/-- Witness for the amended C2 at concrete `no_data` mappings with
differing raw bytes. -/
theorem exclusions_characterization_witness :
    ((⟨some "Controller", some "T1", []⟩ : XTag) ∈
        exclusions [(⟨some "Controller", some "T1", []⟩, [0])]
          [(⟨some "Controller", some "T1", []⟩, [1])] ↔
      (⟨some "Controller", some "T1", []⟩ : XTag) ∈
          keys [((⟨some "Controller", some "T1", []⟩ : XTag), [0])] ∧
        (⟨some "Controller", some "T1", []⟩ : XTag) ∈
          keys [((⟨some "Controller", some "T1", []⟩ : XTag), [1])] ∧
        lookup [((⟨some "Controller", some "T1", []⟩ : XTag), [0])]
            (⟨some "Controller", some "T1", []⟩ : XTag) ≠
          lookup [((⟨some "Controller", some "T1", []⟩ : XTag), [1])]
            (⟨some "Controller", some "T1", []⟩ : XTag)) :=
  exclusions_characterization
    [(⟨some "Controller", some "T1", []⟩, [0])]
    [(⟨some "Controller", some "T1", []⟩, [1])] (by decide) _

/-! ## Path templates and dimension expansion (`src/diff/project.py`)

A path template element is either a member name (a Python `str`) or an
array shape / index tuple (a Python `tuple` of ints, non-negative in
practice since indices come from `range`). `expand_dims` replaces every
shape slot of a template by a concrete index tuple, once per element of
the Cartesian product of `range(0, size)` over every axis of every
shape. -/

/-- Element of a path template or of a concrete path: a member name, or a
tuple of ints (an unresolved array shape before expansion, a concrete
index tuple after). -/
inductive PElem
  | str (s : String)
  | tup (t : List Nat)
deriving DecidableEq

/-- Model of `itertools.product(*[range(d) for d in dim])`: every index
tuple of the shape `d`, first axis varying slowest. -/
def axisProd : List Nat → List (List Nat)
  | [] => [[]]
  | s :: ds => (List.range s).flatMap fun i => (axisProd ds).map fun t => i :: t

/-- Model of `itertools.product(*products)`: every way of picking one
element from each list, first list varying slowest. -/
def combos {α : Type} : List (List α) → List (List α)
  | [] => [[]]
  | l :: ls => l.flatMap fun x => (combos ls).map fun t => x :: t

/-- The unresolved array shapes of a template, in order (the slots the
source locates with `isinstance(dim, tuple)`). -/
def shapesOf (path : List PElem) : List (List Nat) :=
  path.filterMap fun e => match e with | .tup d => some d | .str _ => none

/-- Replace the tuple slots of a template, left to right, by the given
index tuples (the source's `template[indices[i]] = dim` assignments). -/
def subst : List PElem → List (List Nat) → List PElem
  | [], _ => []
  | PElem.str s :: rest, cs => PElem.str s :: subst rest cs
  | PElem.tup _ :: rest, c :: cs => PElem.tup c :: subst rest cs
  | PElem.tup d :: rest, [] => PElem.tup d :: subst rest []

/-- Model of `expand_dims(path)`: substitute every combination of index
tuples into the template and collect the results in a set. -/
def expand_dims (path : List PElem) : Finset (List PElem) :=
  ((combos ((shapesOf path).map axisProd)).map (subst path)).toFinset

theorem mem_axisProd (d c : List Nat) :
    c ∈ axisProd d ↔ List.Forall₂ (fun i s => i < s) c d := by
  induction d generalizing c with
  | nil => simp [axisProd, List.forall₂_nil_right_iff]
  | cons s ds ih =>
    simp only [axisProd, List.mem_flatMap, List.mem_map, List.mem_range,
      List.forall₂_cons_right_iff]
    constructor
    · rintro ⟨i, hi, t, ht, rfl⟩
      exact ⟨i, t, hi, (ih t).mp ht, rfl⟩
    · rintro ⟨i, t, hi, ht, rfl⟩
      exact ⟨i, hi, t, (ih t).mpr ht, rfl⟩

theorem mem_combos {α : Type} (ls : List (List α)) (cs : List α) :
    cs ∈ combos ls ↔ List.Forall₂ (fun x l => x ∈ l) cs ls := by
  induction ls generalizing cs with
  | nil => simp [combos, List.forall₂_nil_right_iff]
  | cons l ls ih =>
    simp only [combos, List.mem_flatMap, List.mem_map,
      List.forall₂_cons_right_iff]
    constructor
    · rintro ⟨x, hx, t, ht, rfl⟩
      exact ⟨x, t, hx, (ih t).mp ht, rfl⟩
    · rintro ⟨x, t, hx, ht, rfl⟩
      exact ⟨x, hx, t, (ih t).mpr ht, rfl⟩

theorem nodup_axisProd (d : List Nat) : (axisProd d).Nodup := by
  induction d with
  | nil => simp [axisProd]
  | cons s ds ih =>
    refine List.nodup_flatMap.mpr ⟨fun x _ => ?_, ?_⟩
    · exact ih.map fun t₁ t₂ ht => by simpa using ht
    · refine (List.nodup_range s).imp ?_
      intro x y hxy t ht ht'
      obtain ⟨t₁, _, rfl⟩ := List.mem_map.mp ht
      obtain ⟨t₂, _, heq⟩ := List.mem_map.mp ht'
      simp only [List.cons.injEq] at heq
      exact hxy heq.1.symm

theorem nodup_combos {α : Type} (ls : List (List α))
    (h : ∀ l ∈ ls, l.Nodup) : (combos ls).Nodup := by
  induction ls with
  | nil => simp [combos]
  | cons l ls ih =>
    have hl : l.Nodup := h l (List.mem_cons_self _ _)
    have hls : (combos ls).Nodup := ih fun x hx => h x (List.mem_cons_of_mem _ hx)
    refine List.nodup_flatMap.mpr ⟨fun x _ => ?_, ?_⟩
    · exact hls.map fun t₁ t₂ ht => by simpa using ht
    · refine hl.imp ?_
      intro x y hxy t ht ht'
      obtain ⟨t₁, _, rfl⟩ := List.mem_map.mp ht
      obtain ⟨t₂, _, heq⟩ := List.mem_map.mp ht'
      simp only [List.cons.injEq] at heq
      exact hxy heq.1.symm

theorem length_axisProd (d : List Nat) : (axisProd d).length = d.prod := by
  induction d with
  | nil => simp [axisProd]
  | cons s ds ih =>
    simp only [axisProd, List.length_flatMap, List.prod_cons]
    have : (List.map (List.length ∘ fun i => (axisProd ds).map fun t => i :: t)
        (List.range s)).sum = (List.map (fun _ => (axisProd ds).length)
          (List.range s)).sum := by
      congr 1
      exact List.map_congr_left fun i _ => by simp
    rw [this, List.map_const', List.sum_replicate, smul_eq_mul,
      List.length_range, ih]

theorem length_combos {α : Type} (ls : List (List α)) :
    (combos ls).length = (ls.map List.length).prod := by
  induction ls with
  | nil => simp [combos]
  | cons l ls ih =>
    simp only [combos, List.length_flatMap, List.map_cons, List.prod_cons]
    have : (List.map (List.length ∘ fun x => (combos ls).map fun t => x :: t)
        l).sum = (List.map (fun _ => (combos ls).length) l).sum := by
      congr 1
      exact List.map_congr_left fun x _ => by simp
    rw [this, List.map_const', List.sum_replicate, smul_eq_mul, ih]

theorem subst_injOn (path : List PElem) :
    ∀ cs cs', cs.length = (shapesOf path).length →
      cs'.length = (shapesOf path).length →
      subst path cs = subst path cs' → cs = cs' := by
  induction path with
  | nil =>
    intro cs cs' h h' _
    simp only [shapesOf, List.filterMap_nil, List.length_nil] at h h'
    rw [List.length_eq_zero.mp h, List.length_eq_zero.mp h']
  | cons e rest ih =>
    intro cs cs' h h' heq
    cases e with
    | str s =>
      simp only [shapesOf, List.filterMap_cons] at h h'
      simp only [subst, List.cons.injEq, eq_self_iff_true, true_and] at heq
      exact ih cs cs' h h' heq
    | tup d =>
      simp only [shapesOf, List.filterMap_cons, List.length_cons] at h h'
      cases cs with
      | nil => simp at h
      | cons c cs₂ =>
        cases cs' with
        | nil => simp at h'
        | cons c' cs₂' =>
          simp only [subst, List.cons.injEq, PElem.tup.injEq] at heq
          simp only [List.length_cons, Nat.succ.injEq] at h h'
          exact by rw [heq.1, ih cs₂ cs₂' h h' heq.2]

/-- Claim C4: `expand_dims` yields exactly one concrete path per element
of the full Cartesian product, across all unresolved shapes of the
template, of `range(0, size)` for each axis of each shape, with no
duplicates; in particular a single shape of size `(2,3)` yields exactly 6
concrete paths. -/
theorem expand_dims_cartesian (path : List PElem) :
    (∀ q, q ∈ expand_dims path ↔
      ∃ cs, List.Forall₂ (fun c d => List.Forall₂ (fun i s => i < s) c d)
          cs (shapesOf path) ∧ q = subst path cs) ∧
    (expand_dims path).card = ((shapesOf path).map List.prod).prod ∧
    (expand_dims [PElem.tup [2, 3]]).card = 6 := by
  have hmem : ∀ cs, cs ∈ combos ((shapesOf path).map axisProd) ↔
      List.Forall₂ (fun c d => List.Forall₂ (fun i s => i < s) c d)
        cs (shapesOf path) := by
    intro cs
    rw [mem_combos, List.forall₂_map_right_iff]
    constructor
    · exact fun h => h.imp fun a c hx => (mem_axisProd c a).mp hx
    · exact fun h => h.imp fun a c hx => (mem_axisProd c a).mpr hx
  have hlen : ∀ cs, cs ∈ combos ((shapesOf path).map axisProd) →
      cs.length = (shapesOf path).length := by
    intro cs h
    have := ((mem_combos _ cs).mp h).length_eq
    simpa using this
  have hnodup : ((combos ((shapesOf path).map axisProd)).map
      (subst path)).Nodup := by
    refine List.Nodup.map_on ?_ (nodup_combos _ ?_)
    · intro x hx y hy hxy
      exact subst_injOn path x y (hlen x hx) (hlen y hy) hxy
    · intro l hl
      obtain ⟨d, _, rfl⟩ := List.mem_map.mp hl
      exact nodup_axisProd d
  refine ⟨?_, ?_, by decide⟩
  · intro q
    simp only [expand_dims, List.mem_toFinset, List.mem_map]
    constructor
    · rintro ⟨cs, hcs, rfl⟩
      exact ⟨cs, (hmem cs).mp hcs, rfl⟩
    · rintro ⟨cs, hcs, rfl⟩
      exact ⟨cs, (hmem cs).mpr hcs, rfl⟩
  · rw [expand_dims, List.toFinset_card_of_nodup hnodup, List.length_map,
      length_combos]
    congr 1
    rw [List.map_map]
    exact List.map_congr_left fun d _ => by simp [length_axisProd]

/-! ## Value resolution (`src/diff/project.py`, `get_value`)

The parsed value tree of a declared tag nests arrays (Python lists) and
structures (Python dicts) around integer scalars. `get_value` walks a
fully resolved path left to right; an index tuple is applied with its
component indices reversed, most-significant index first, because the
stored shape convention orders dimensions least-significant first. -/

/-- Nested value tree of a declared tag as produced by the text-encoding
parser. -/
inductive Value
  | int (n : Int)
  | arr (elems : List Value)
  | struct (fields : List (String × Value))

/-- Model of `value[dim]` for an integer index: list indexing, absent on
anything that is not an array or out of range. -/
def valueIndex : Value → Nat → Option Value
  | .arr es, i => es.get? i
  | .int _, _ => none
  | .struct _, _ => none

/-- Model of `value[member]` for a member name: dict lookup, absent on
anything that is not a structure. -/
def valueField : Value → String → Option Value
  | .struct fs, m => lookup fs m
  | .int _, _ => none
  | .arr _, _ => none

/-- A declared tag of the text encoding: datatype name, optional declared
array shape, and parsed value tree. -/
structure DeclTag where
  datatype : String
  dim : Option (List Nat)
  value : Value

/-- Fully resolved tag reference of the text encoding (the `Tag`
namedtuple of `src/diff/project.py`): members are names or concrete index
tuples. -/
structure PTag where
  scope : String
  name : String
  members : List PElem
deriving DecidableEq

/-- Model of `get_value(tag, scope)`: fetch the declared tag's value tree
by name, then walk the member segments left to right; an index tuple is
applied via `for dim in reversed(member)`. -/
def get_value (tag : PTag) (scope : List (String × DeclTag)) : Option Value :=
  match lookup scope tag.name with
  | none => none
  | some decl =>
      tag.members.foldl
        (fun acc m =>
          match m with
          | PElem.str s => acc.bind fun w => valueField w s
          | PElem.tup t =>
              t.reverse.foldl (fun a i => a.bind fun w => valueIndex w i) acc)
        (some decl.value)

/-- Independent formulation of index-tuple application with the
most-significant (last recorded) index applied first. -/
def applyIndicesMSF : List Nat → Value → Option Value
  | [], v => some v
  | i :: rest, v => (applyIndicesMSF rest v).bind fun w => valueIndex w i

theorem reverse_foldl_eq_applyIndicesMSF (t : List Nat) (v : Value) :
    t.reverse.foldl (fun a i => a.bind fun w => valueIndex w i) (some v) =
      applyIndicesMSF t v := by
  induction t generalizing v with
  | nil => simp [applyIndicesMSF]
  | cons i rest ih =>
    simp only [List.reverse_cons, List.foldl_append, List.foldl_cons,
      List.foldl_nil, applyIndicesMSF, ih]

theorem foldl_bind_none (l : List Nat) :
    l.foldl (fun a i => a.bind fun w => valueIndex w i)
      (none : Option Value) = none := by
  induction l with
  | nil => rfl
  | cons i rest ih => simpa using ih

theorem foldl_reverse_bind (t : List Nat) (acc : Option Value) :
    t.reverse.foldl (fun a i => a.bind fun w => valueIndex w i) acc =
      acc.bind fun v => applyIndicesMSF t v := by
  cases acc with
  | none =>
    have := foldl_bind_none t.reverse
    simpa using this
  | some v => exact reverse_foldl_eq_applyIndicesMSF t v

theorem source_walk_foldl_none (l : List PElem) :
    l.foldl
      (fun acc m =>
        match m with
        | PElem.str s => acc.bind fun w => valueField w s
        | PElem.tup t =>
            t.reverse.foldl (fun a i => a.bind fun w => valueIndex w i) acc)
      none = none := by
  induction l with
  | nil => rfl
  | cons m rest ih =>
    cases m with
    | str s => simpa using ih
    | tup t =>
      simp only [List.foldl_cons]
      rw [foldl_reverse_bind]
      simpa using ih

theorem msf_walk_foldl_none (l : List PElem) :
    l.foldl
      (fun acc m =>
        acc.bind fun w =>
          match m with
          | PElem.str s => valueField w s
          | PElem.tup t => applyIndicesMSF t w)
      none = none := by
  induction l with
  | nil => rfl
  | cons m rest ih => simpa using ih

/-- Claim C5: `get_value` walks the member segments left to right, a named
segment by member-name lookup and an index tuple with its component
indices applied in reversed recording order (most-significant index
first), returning the value at that location. -/
theorem get_value_walk (tag : PTag) (scope : List (String × DeclTag))
    (decl : DeclTag) (h : lookup scope tag.name = some decl) :
    get_value tag scope =
      tag.members.foldl
        (fun acc m =>
          acc.bind fun w =>
            match m with
            | PElem.str s => valueField w s
            | PElem.tup t => applyIndicesMSF t w)
        (some decl.value) := by
  obtain ⟨sc, nm, ms⟩ := tag
  have hg : get_value ⟨sc, nm, ms⟩ scope =
      ms.foldl
        (fun acc m =>
          match m with
          | PElem.str s => acc.bind fun w => valueField w s
          | PElem.tup t =>
              t.reverse.foldl (fun a i => a.bind fun w => valueIndex w i) acc)
        (some decl.value) := by
    unfold get_value
    rw [h]
  rw [hg]
  clear hg h
  generalize decl.value = v
  induction ms generalizing v with
  | nil => rfl
  | cons m rest ih =>
    cases m with
    | str s =>
      simp only [List.foldl_cons, Option.some_bind]
      cases hv : valueField v s with
      | none => rw [source_walk_foldl_none, msf_walk_foldl_none]
      | some w => exact ih w
    | tup t =>
      simp only [List.foldl_cons, Option.some_bind]
      rw [foldl_reverse_bind, Option.some_bind]
      cases hv : applyIndicesMSF t v with
      | none => rw [source_walk_foldl_none, msf_walk_foldl_none]
      | some w => exact ih w

/-- Witness for C5: a 2-axis tree with shape recorded least-significant
first; the tuple `(0, 1)` resolves by applying index 1 (outer list) before
index 0 (inner list). -/
theorem get_value_walk_witness :
    get_value ⟨"Controller", "Arr", [PElem.tup [0, 1]]⟩
        [("Arr", ⟨"MYUDT", some [2, 3],
          Value.arr [Value.arr [Value.int 1, Value.int 2],
            Value.arr [Value.int 3, Value.int 4]]⟩)] =
      [PElem.tup [0, 1]].foldl
        (fun acc m =>
          acc.bind fun w =>
            match m with
            | PElem.str s => valueField w s
            | PElem.tup t => applyIndicesMSF t w)
        (some (Value.arr [Value.arr [Value.int 1, Value.int 2],
          Value.arr [Value.int 3, Value.int 4]])) :=
  get_value_walk ⟨"Controller", "Arr", [PElem.tup [0, 1]]⟩
    [("Arr", ⟨"MYUDT", some [2, 3],
      Value.arr [Value.arr [Value.int 1, Value.int 2],
        Value.arr [Value.int 3, Value.int 4]]⟩)]
    ⟨"MYUDT", some [2, 3],
      Value.arr [Value.arr [Value.int 1, Value.int 2],
        Value.arr [Value.int 3, Value.int 4]]⟩ rfl

/-! ## Structural decoder (`src/diff/l5x.py`, `PreExtractor`)

The SAX content handler is embedded as a state machine: `step` consumes
one SAX event (`startElement`, `endElement` or `characters`) and either
produces the next state or fails with the Python exception the handler
would raise. The `ignored_elements` list is the suppression stack (top at
the head; Python appends and pops at the tail, only the length is ever
observed). `None`-valued Python fields are `Option`s. -/

/-- Python exceptions the decoder can raise. -/
inductive PyError
  | keyError (attr : String)
  | valueError (msg : String)
  | assertionError
  | attributeError
  | indexError
  | typeError
deriving DecidableEq

/-- SAX events fed to the content handler. -/
inductive XmlEvent
  | startE (name : String) (attrs : List (String × String))
  | endE (name : String)
  | chars (content : String)
deriving DecidableEq

/-- Mutable state of the `PreExtractor` content handler. -/
structure PreExtractor where
  ignored_elements : Option (List String)
  scope : Option String
  tag_name : Option String
  tag_members : Option (List Member)
  tag_has_decorated_data : Bool
  is_alias : Bool
  raw_tag_data : Option (List String)
  values : List (XTag × Int)
  no_data : List (XTag × List Nat)
deriving DecidableEq

/-- Model of `attrs.getValue(a)`: `KeyError` when the attribute is
missing. -/
def getValueAttr (attrs : List (String × String)) (a : String) :
    Except PyError String :=
  match lookup attrs a with
  | some v => Except.ok v
  | none => Except.error (PyError.keyError a)

/-- ASCII whitespace. -/
def isSpaceChar (c : Char) : Bool :=
  c = ' ' || c = '\t' || c = '\n' || c = '\r' || c = '\x0b' || c = '\x0c'

/-- Model of Python `int(s)` restricted to base-10 literals: optional
surrounding whitespace, optional sign, then decimal digits. -/
def parseIntChars (cs : List Char) : Option Int :=
  let t := ((cs.dropWhile isSpaceChar).reverse.dropWhile isSpaceChar).reverse
  let neg := match t with | '-' :: _ => true | _ => false
  let ds := match t with
    | '-' :: rest => rest
    | '+' :: rest => rest
    | _ => t
  if ds ≠ [] ∧ ds.all Char.isDigit then
    let n := ds.foldl (fun acc c => acc * 10 + (c.toNat - 48)) (0 : Nat)
    some (if neg then -(n : Int) else (n : Int))
  else none

/-- Model of Python `int(s)` on a string. -/
def parseInt (s : String) : Option Int := parseIntChars s.toList

/-- Value of one hexadecimal digit. -/
def hexDigitVal (c : Char) : Option Nat :=
  if c.isDigit then some (c.toNat - 48)
  else if 'a' ≤ c ∧ c ≤ 'f' then some (c.toNat - 87)
  else if 'A' ≤ c ∧ c ≤ 'F' then some (c.toNat - 55)
  else none

/-- Pairs of hex digits to byte values. -/
def hexPairs : List Char → Option (List Nat)
  | [] => some []
  | [_] => none
  | c1 :: c2 :: rest =>
      match hexDigitVal c1, hexDigitVal c2, hexPairs rest with
      | some h1, some h2, some bs => some ((h1 * 16 + h2) :: bs)
      | _, _, _ => none

/-- Model of `bytes.fromhex(s)`: ASCII whitespace is skipped, the
remaining characters must form pairs of hex digits. -/
def bytes_fromhex (s : String) : Option (List Nat) :=
  hexPairs (s.toList.filter fun c => !isSpaceChar c)

/-- Model of `ignore_children`: start suppression, a fatal
`AssertionError` when suppression is already active. -/
def ignore_children (st : PreExtractor) : Except PyError PreExtractor :=
  match st.ignored_elements with
  | none => Except.ok { st with ignored_elements := some [] }
  | some _ => Except.error PyError.assertionError

/-- Handler for the start of the `Controller` element. -/
def start_Controller (st : PreExtractor) : Except PyError PreExtractor :=
  Except.ok { st with scope := some "Controller" }

/-- Handler for the start of a `Program` element. -/
def start_Program (st : PreExtractor) (attrs : List (String × String)) :
    Except PyError PreExtractor :=
  match getValueAttr attrs "Name" with
  | Except.error e => Except.error e
  | Except.ok n => Except.ok { st with scope := some n }

/-- Handler for the start of a `Tag` element. -/
def start_Tag (st : PreExtractor) (attrs : List (String × String)) :
    Except PyError PreExtractor :=
  match getValueAttr attrs "TagType" with
  | Except.error e => Except.error e
  | Except.ok tt =>
      if tt = "Alias" then
        ignore_children { st with is_alias := true }
      else
        match getValueAttr attrs "Name" with
        | Except.error e => Except.error e
        | Except.ok n =>
            Except.ok { st with
              is_alias := false
              tag_name := some n
              tag_members := some []
              tag_has_decorated_data := false }

/-- Handler for the closing of a `Tag` element: a non-alias tag without
decorated data records its raw hex payload in `no_data` under an
empty member sequence; the raw-capture buffer is then discarded. -/
def end_Tag (st : PreExtractor) : Except PyError PreExtractor :=
  if st.is_alias = false ∧ st.tag_has_decorated_data = false then
    match st.raw_tag_data with
    | none => Except.error PyError.typeError
    | some chunks =>
        match bytes_fromhex (String.join chunks) with
        | none => Except.error (PyError.valueError "fromhex")
        | some data =>
            Except.ok { st with
              no_data := insertAssoc st.no_data ⟨st.scope, st.tag_name, []⟩ data
              raw_tag_data := none }
  else Except.ok { st with raw_tag_data := none }

/-- Handler for the start of a `Data` element: an explicit `Decorated`
format marks the tag as decorated; a missing `Format` attribute starts
raw-payload capture. -/
def start_Data (st : PreExtractor) (attrs : List (String × String)) :
    Except PyError PreExtractor :=
  match lookup attrs "Format" with
  | some f =>
      Except.ok (if f = "Decorated"
        then { st with tag_has_decorated_data := true } else st)
  | none => Except.ok { st with raw_tag_data := some [] }

/-- Handler for element character content: appended to the raw-capture
buffer when one is active, ignored otherwise. -/
def charactersHandler (st : PreExtractor) (content : String) :
    Except PyError PreExtractor :=
  match st.raw_tag_data with
  | some chunks =>
      Except.ok { st with raw_tag_data := some (chunks ++ [content]) }
  | none => Except.ok st

/-- Model of Python `str.split(",")` on a character list. -/
def splitOnComma (cs : List Char) : List (List Char) :=
  cs.foldr
    (fun c acc =>
      if c = ',' then [] :: acc
      else
        match acc with
        | [] => [[c]]
        | g :: gs => (c :: g) :: gs)
    [[]]

/-- Model of `raw[1:-1].split(",")` followed by `int` on each part. -/
def parseIndexText (raw : String) : Except PyError (List Int) :=
  let inner := (raw.toList.drop 1).dropLast
  let parts := splitOnComma inner
  parts.mapM fun p =>
    match parseIntChars p with
    | some n => Except.ok n
    | none => Except.error (PyError.valueError (String.mk p))

/-- Handler for the start of an `Element` element: push the parsed array
index tuple onto the member path. -/
def start_Element (st : PreExtractor) (attrs : List (String × String)) :
    Except PyError PreExtractor :=
  match getValueAttr attrs "Index" with
  | Except.error e => Except.error e
  | Except.ok raw =>
      match st.tag_members with
      | none => Except.error PyError.attributeError
      | some ms =>
          match parseIndexText raw with
          | Except.error e => Except.error e
          | Except.ok idxs =>
              Except.ok { st with tag_members := some (ms ++ [Member.indices idxs]) }

/-- Model of `append_named_member`: push the member's `Name` onto the
member path (also the body of `start_StructureMember` and
`start_ArrayMember`). -/
def append_named_member (st : PreExtractor) (attrs : List (String × String)) :
    Except PyError PreExtractor :=
  match getValueAttr attrs "Name" with
  | Except.error e => Except.error e
  | Except.ok n =>
      match st.tag_members with
      | none => Except.error PyError.attributeError
      | some ms => Except.ok { st with tag_members := some (ms ++ [Member.named n]) }

/-- Model of `end_named_member`: pop the last member path entry. -/
def end_named_member (st : PreExtractor) : Except PyError PreExtractor :=
  match st.tag_members with
  | none => Except.error PyError.attributeError
  | some [] => Except.error PyError.indexError
  | some ms => Except.ok { st with tag_members := some ms.dropLast }

/-- Model of `PreExtractor.get_value`: a non-`Decimal` radix is a fatal
`ValueError`; otherwise parse the `Value` attribute as an integer. -/
def pre_get_value (attrs : List (String × String)) : Except PyError Int :=
  match getValueAttr attrs "Radix" with
  | Except.error e => Except.error e
  | Except.ok radix =>
      if radix = "Decimal" then
        match getValueAttr attrs "Value" with
        | Except.error e => Except.error e
        | Except.ok raw =>
            match parseInt raw with
            | some n => Except.ok n
            | none => Except.error (PyError.valueError raw)
      else Except.error (PyError.valueError radix)

/-- Handler for the start of a `DataValueMember` element: push the member
name; a member named `PRE` additionally records its decoded value in
`values` under the current full path. -/
def start_DataValueMember (st : PreExtractor) (attrs : List (String × String)) :
    Except PyError PreExtractor :=
  match append_named_member st attrs with
  | Except.error e => Except.error e
  | Except.ok st1 =>
      match getValueAttr attrs "Name" with
      | Except.error e => Except.error e
      | Except.ok n =>
          if n = "PRE" then
            match st1.tag_members with
            | none => Except.error PyError.attributeError
            | some ms =>
                match pre_get_value attrs with
                | Except.error e => Except.error e
                | Except.ok v =>
                    Except.ok { st1 with
                      values := insertAssoc st1.values ⟨st1.scope, st1.tag_name, ms⟩ v }
          else Except.ok st1

/-- Dispatch of `startElement` by element name when not suppressing
(`start_AddOnInstructionDefinitions` and `start_Modules` both reduce to
`ignore_children`; unknown names have no handler). -/
def dispatchStart (st : PreExtractor) (name : String)
    (attrs : List (String × String)) : Except PyError PreExtractor :=
  if name = "AddOnInstructionDefinitions" then ignore_children st
  else if name = "Modules" then ignore_children st
  else if name = "Controller" then start_Controller st
  else if name = "Program" then start_Program st attrs
  else if name = "Tag" then start_Tag st attrs
  else if name = "Data" then start_Data st attrs
  else if name = "Element" then start_Element st attrs
  else if name = "StructureMember" then append_named_member st attrs
  else if name = "ArrayMember" then append_named_member st attrs
  else if name = "DataValueMember" then start_DataValueMember st attrs
  else Except.ok st

/-- Model of `PreExtractor.startElement`: while suppressing, push the
name on the suppression stack; otherwise dispatch by name. -/
def startElement (st : PreExtractor) (name : String)
    (attrs : List (String × String)) : Except PyError PreExtractor :=
  match st.ignored_elements with
  | some stk => Except.ok { st with ignored_elements := some (name :: stk) }
  | none => dispatchStart st name attrs

/-- Dispatch of `endElement` by element name (the `Element`,
`StructureMember`, `ArrayMember` and `DataValueMember` end handlers all
reduce to `end_named_member`). -/
def dispatchEnd (st : PreExtractor) (name : String) :
    Except PyError PreExtractor :=
  if name = "Tag" then end_Tag st
  else if name = "Element" then end_named_member st
  else if name = "StructureMember" then end_named_member st
  else if name = "ArrayMember" then end_named_member st
  else if name = "DataValueMember" then end_named_member st
  else Except.ok st

/-- Model of `PreExtractor.endElement`: pop the suppression stack while it
is non-empty; popping an empty stack (`IndexError`) or not suppressing at
all (`AttributeError`) clears the stack and dispatches normally. -/
def endElement (st : PreExtractor) (name : String) :
    Except PyError PreExtractor :=
  match st.ignored_elements with
  | some (_ :: rest) => Except.ok { st with ignored_elements := some rest }
  | some [] => dispatchEnd { st with ignored_elements := none } name
  | none => dispatchEnd { st with ignored_elements := none } name

/-- One SAX event. -/
def step (st : PreExtractor) : XmlEvent → Except PyError PreExtractor
  | XmlEvent.startE name attrs => startElement st name attrs
  | XmlEvent.endE name => endElement st name
  | XmlEvent.chars content => charactersHandler st content

/-- A whole event stream; decoding aborts at the first exception. -/
def run (st : PreExtractor) : List XmlEvent → Except PyError PreExtractor
  | [] => Except.ok st
  | ev :: rest =>
      match step st ev with
      | Except.ok st' => run st' rest
      | Except.error e => Except.error e

/-- Initial handler state (`PreExtractor.__init__`). -/
def initExtractor : PreExtractor :=
  ⟨none, none, none, none, false, false, none, [], []⟩

/-- Well-nestedness of an event sequence at depth `d`: every end event
matches an earlier start event of the sequence, and the sequence returns
to depth zero. -/
def suffixOk : Nat → List XmlEvent → Bool
  | d, [] => d == 0
  | d, XmlEvent.startE _ _ :: rest => suffixOk (d + 1) rest
  | d, XmlEvent.endE _ :: rest => d != 0 && suffixOk (d - 1) rest
  | d, XmlEvent.chars _ :: rest => suffixOk d rest

theorem run_append (st : PreExtractor) (a b : List XmlEvent) :
    run st (a ++ b) =
      match run st a with
      | Except.ok st' => run st' b
      | Except.error e => Except.error e := by
  induction a generalizing st with
  | nil => simp [run]
  | cons ev rest ih =>
    simp only [List.cons_append, run]
    cases step st ev with
    | ok st' => exact ih st'
    | error e => rfl

/-- Fields of the decoder state untouched while suppression is active
(only the suppression stack and the raw-capture buffer may change). -/
def SuppressedPreserves (st st' : PreExtractor) : Prop :=
  st'.scope = st.scope ∧ st'.tag_name = st.tag_name ∧
    st'.tag_members = st.tag_members ∧
    st'.tag_has_decorated_data = st.tag_has_decorated_data ∧
    st'.is_alias = st.is_alias ∧ st'.values = st.values ∧
    st'.no_data = st.no_data

theorem suppressedPreserves_refl (st : PreExtractor) :
    SuppressedPreserves st st :=
  ⟨rfl, rfl, rfl, rfl, rfl, rfl, rfl⟩

theorem suppressedPreserves_trans {s1 s2 s3 : PreExtractor}
    (h1 : SuppressedPreserves s1 s2) (h2 : SuppressedPreserves s2 s3) :
    SuppressedPreserves s1 s3 := by
  obtain ⟨a1, b1, c1, d1, e1, f1, g1⟩ := h1
  obtain ⟨a2, b2, c2, d2, e2, f2, g2⟩ := h2
  exact ⟨a2.trans a1, b2.trans b1, c2.trans c1, d2.trans d1, e2.trans e1,
    f2.trans f1, g2.trans g1⟩

/-- While the suppression stack is active, a well-nested event sequence is
consumed without dispatching any handler: the stack returns to its
surrounding part and every field other than the raw-capture buffer is
unchanged. -/
theorem run_suppressed (evs : List XmlEvent) :
    ∀ (pushed s : List String) (st : PreExtractor),
      st.ignored_elements = some (pushed ++ s) →
      suffixOk pushed.length evs = true →
      ∃ st', run st evs = Except.ok st' ∧
        st'.ignored_elements = some s ∧ SuppressedPreserves st st' := by
  induction evs with
  | nil =>
    intro pushed s st hig hok
    simp only [suffixOk, beq_iff_eq] at hok
    have : pushed = [] := List.length_eq_zero.mp hok
    subst this
    exact ⟨st, rfl, by simpa using hig, suppressedPreserves_refl st⟩
  | cons ev rest ih =>
    intro pushed s st hig hok
    cases ev with
    | startE n attrs =>
      simp only [suffixOk] at hok
      have hstep : step st (XmlEvent.startE n attrs) =
          Except.ok { st with ignored_elements := some ((n :: pushed) ++ s) } := by
        simp [step, startElement, hig]
      obtain ⟨st', hrun, hig', hpres⟩ :=
        ih (n :: pushed) s { st with ignored_elements := some ((n :: pushed) ++ s) }
          rfl (by simpa [List.length_cons] using hok)
      refine ⟨st', ?_, hig', suppressedPreserves_trans ?_ hpres⟩
      · simp only [run, hstep]
        exact hrun
      · exact ⟨rfl, rfl, rfl, rfl, rfl, rfl, rfl⟩
    | endE n =>
      simp only [suffixOk, Bool.and_eq_true, bne_iff_ne, ne_eq] at hok
      obtain ⟨hdne, hok'⟩ := hok
      cases pushed with
      | nil => simp at hdne
      | cons x ps =>
        have hstep : step st (XmlEvent.endE n) =
            Except.ok { st with ignored_elements := some (ps ++ s) } := by
          simp [step, endElement, hig]
        obtain ⟨st', hrun, hig', hpres⟩ :=
          ih ps s { st with ignored_elements := some (ps ++ s) } rfl
            (by simpa [List.length_cons] using hok')
        refine ⟨st', ?_, hig', suppressedPreserves_trans ?_ hpres⟩
        · simp only [run, hstep]
          exact hrun
        · exact ⟨rfl, rfl, rfl, rfl, rfl, rfl, rfl⟩
    | chars c =>
      simp only [suffixOk] at hok
      cases hraw : st.raw_tag_data with
      | none =>
        have hstep : step st (XmlEvent.chars c) = Except.ok st := by
          simp [step, charactersHandler, hraw]
        obtain ⟨st', hrun, hig', hpres⟩ := ih pushed s st hig hok
        exact ⟨st', by simp only [run, hstep]; exact hrun, hig', hpres⟩
      | some chunks =>
        have hstep : step st (XmlEvent.chars c) =
            Except.ok { st with raw_tag_data := some (chunks ++ [c]) } := by
          simp [step, charactersHandler, hraw]
        obtain ⟨st', hrun, hig', hpres⟩ :=
          ih pushed s { st with raw_tag_data := some (chunks ++ [c]) } hig hok
        refine ⟨st', ?_, hig', suppressedPreserves_trans ?_ hpres⟩
        · simp only [run, hstep]
          exact hrun
        · exact ⟨rfl, rfl, rfl, rfl, rfl, rfl, rfl⟩

/-- Claim C7: a `Tag` element declared as an alias contributes no entry to
`values` and no entry to `no_data`, whatever its subtree holds: across the
span from its start event to its matching end event, both output mappings
are unchanged. -/
theorem alias_tag_contributes_nothing (st : PreExtractor)
    (attrs : List (String × String)) (inner : List XmlEvent)
    (st' : PreExtractor)
    (halias : lookup attrs "TagType" = some "Alias")
    (hbal : suffixOk 0 inner = true)
    (hrun : run st (XmlEvent.startE "Tag" attrs ::
      (inner ++ [XmlEvent.endE "Tag"])) = Except.ok st') :
    st'.values = st.values ∧ st'.no_data = st.no_data := by
  cases hig : st.ignored_elements with
  | some stk =>
    have hstep : step st (XmlEvent.startE "Tag" attrs) =
        Except.ok { st with ignored_elements := some ("Tag" :: stk) } := by
      simp [step, startElement, hig]
    simp only [run, hstep] at hrun
    obtain ⟨st2, hrun2, hig2, hpres⟩ :=
      run_suppressed inner [] ("Tag" :: stk)
        { st with ignored_elements := some ("Tag" :: stk) } rfl hbal
    rw [run_append] at hrun
    simp only [hrun2] at hrun
    have hstep2 : step st2 (XmlEvent.endE "Tag") =
        Except.ok { st2 with ignored_elements := some stk } := by
      simp [step, endElement, hig2]
    simp only [run, hstep2, Except.ok.injEq] at hrun
    subst hrun
    exact ⟨hpres.2.2.2.2.2.1, hpres.2.2.2.2.2.2⟩
  | none =>
    have hstep : step st (XmlEvent.startE "Tag" attrs) =
        Except.ok { st with is_alias := true, ignored_elements := some [] } := by
      simp [step, startElement, hig, dispatchStart, start_Tag, getValueAttr,
        halias, ignore_children]
    simp only [run, hstep] at hrun
    obtain ⟨st2, hrun2, hig2, hpres⟩ :=
      run_suppressed inner [] []
        { st with is_alias := true, ignored_elements := some [] } rfl hbal
    rw [run_append] at hrun
    simp only [hrun2] at hrun
    have halias2 : st2.is_alias = true := hpres.2.2.2.2.1
    have hstep2 : step st2 (XmlEvent.endE "Tag") =
        Except.ok { st2 with ignored_elements := none, raw_tag_data := none } := by
      simp [step, endElement, hig2, dispatchEnd, end_Tag, halias2]
    simp only [run, hstep2, Except.ok.injEq] at hrun
    subst hrun
    exact ⟨hpres.2.2.2.2.2.1, hpres.2.2.2.2.2.2⟩

/-- Witness for C7: an alias tag whose subtree holds a `Data` element
leaves `values` and `no_data` of the fresh decoder untouched. -/
theorem alias_tag_contributes_nothing_witness :
    (⟨none, none, none, none, false, true, none, [], []⟩ :
        PreExtractor).values = initExtractor.values ∧
      (⟨none, none, none, none, false, true, none, [], []⟩ :
        PreExtractor).no_data = initExtractor.no_data :=
  alias_tag_contributes_nothing initExtractor [("TagType", "Alias")]
    [XmlEvent.startE "Data" [], XmlEvent.endE "Data"]
    ⟨none, none, none, none, false, true, none, [], []⟩ rfl rfl rfl

theorem container_suppression (st : PreExtractor) (cname : String)
    (attrs : List (String × String)) (inner : List XmlEvent)
    (st' : PreExtractor)
    (hds : ∀ s, dispatchStart s cname attrs = ignore_children s)
    (hde : ∀ s, dispatchEnd s cname = Except.ok s)
    (hbal : suffixOk 0 inner = true)
    (hrun : run st (XmlEvent.startE cname attrs ::
      (inner ++ [XmlEvent.endE cname])) = Except.ok st') :
    st'.values = st.values ∧ st'.no_data = st.no_data := by
  cases hig : st.ignored_elements with
  | some stk =>
    have hstep : step st (XmlEvent.startE cname attrs) =
        Except.ok { st with ignored_elements := some (cname :: stk) } := by
      simp [step, startElement, hig]
    simp only [run, hstep] at hrun
    obtain ⟨st2, hrun2, hig2, hpres⟩ :=
      run_suppressed inner [] (cname :: stk)
        { st with ignored_elements := some (cname :: stk) } rfl hbal
    rw [run_append] at hrun
    simp only [hrun2] at hrun
    have hstep2 : step st2 (XmlEvent.endE cname) =
        Except.ok { st2 with ignored_elements := some stk } := by
      simp [step, endElement, hig2]
    simp only [run, hstep2, Except.ok.injEq] at hrun
    subst hrun
    exact ⟨hpres.2.2.2.2.2.1, hpres.2.2.2.2.2.2⟩
  | none =>
    have hstep : step st (XmlEvent.startE cname attrs) =
        Except.ok { st with ignored_elements := some [] } := by
      simp [step, startElement, hig, hds, ignore_children]
    simp only [run, hstep] at hrun
    obtain ⟨st2, hrun2, hig2, hpres⟩ :=
      run_suppressed inner [] [] { st with ignored_elements := some [] } rfl hbal
    rw [run_append] at hrun
    simp only [hrun2] at hrun
    have hstep2 : step st2 (XmlEvent.endE cname) =
        Except.ok { st2 with ignored_elements := none } := by
      simp [step, endElement, hig2, hde]
    simp only [run, hstep2, Except.ok.injEq] at hrun
    subst hrun
    exact ⟨hpres.2.2.2.2.2.1, hpres.2.2.2.2.2.2⟩

/-- Claim C8: no element inside the subtree of an
`AddOnInstructionDefinitions` or `Modules` container ever adds an entry to
`values` or `no_data`: across the span from the container's start event to
its matching end event both output mappings are unchanged, whatever the
subtree holds. -/
theorem suppressed_container_contributes_nothing (st : PreExtractor)
    (cname : String) (attrs : List (String × String)) (inner : List XmlEvent)
    (st' : PreExtractor)
    (hc : cname = "AddOnInstructionDefinitions" ∨ cname = "Modules")
    (hbal : suffixOk 0 inner = true)
    (hrun : run st (XmlEvent.startE cname attrs ::
      (inner ++ [XmlEvent.endE cname])) = Except.ok st') :
    st'.values = st.values ∧ st'.no_data = st.no_data := by
  rcases hc with rfl | rfl
  · exact container_suppression st _ attrs inner st'
      (fun s => by simp [dispatchStart]) (fun s => by simp [dispatchEnd])
      hbal hrun
  · exact container_suppression st _ attrs inner st'
      (fun s => by simp [dispatchStart]) (fun s => by simp [dispatchEnd])
      hbal hrun

/-- Witness for C8: an instruction-definitions container whose subtree
holds a decorated-value-like `PRE` member leaves `values` and `no_data` of
the fresh decoder untouched. -/
theorem suppressed_container_contributes_nothing_witness :
    initExtractor.values = initExtractor.values ∧
      initExtractor.no_data = initExtractor.no_data :=
  suppressed_container_contributes_nothing initExtractor
    "AddOnInstructionDefinitions" []
    [XmlEvent.startE "DataValueMember"
        [("Name", "PRE"), ("Radix", "Decimal"), ("Value", "5")],
      XmlEvent.endE "DataValueMember"]
    initExtractor (Or.inl rfl) rfl rfl

/-- Claim C9: closing a non-alias `Tag` that never acquired decorated data
decodes the accumulated raw hex text to bytes, records it in `no_data`
under the current scope and tag name with an empty member sequence, and
discards the raw-capture buffer. -/
theorem end_tag_records_raw (st : PreExtractor) (chunks : List String)
    (bs : List Nat)
    (hig : st.ignored_elements = none)
    (halias : st.is_alias = false)
    (hdec : st.tag_has_decorated_data = false)
    (hraw : st.raw_tag_data = some chunks)
    (hhex : bytes_fromhex (String.join chunks) = some bs) :
    step st (XmlEvent.endE "Tag") =
      Except.ok { st with
        no_data := insertAssoc st.no_data ⟨st.scope, st.tag_name, []⟩ bs,
        raw_tag_data := none } := by
  obtain ⟨ign, sc, tn, tm, hd, ia, raw, vals, nd⟩ := st
  have hig' : ign = none := hig
  have halias' : ia = false := halias
  have hdec' : hd = false := hdec
  have hraw' : raw = some chunks := hraw
  subst hig'; subst halias'; subst hdec'; subst hraw'
  simp [step, endElement, dispatchEnd, end_Tag, hhex]

/-- Witness for C9 on a concrete undecorated tag with raw payload
`"beef"`. -/
theorem end_tag_records_raw_witness :
    step (⟨none, some "Controller", some "T1", none, false, false,
        some ["be", "ef"], [], []⟩ : PreExtractor) (XmlEvent.endE "Tag") =
      Except.ok { (⟨none, some "Controller", some "T1", none, false, false,
          some ["be", "ef"], [], []⟩ : PreExtractor) with
        no_data := insertAssoc []
          ⟨(some "Controller" : Option String), some "T1", []⟩ [190, 239],
        raw_tag_data := none } :=
  end_tag_records_raw
    ⟨none, some "Controller", some "T1", none, false, false,
      some ["be", "ef"], [], []⟩ ["be", "ef"] [190, 239] rfl rfl rfl rfl rfl

/-- Claim C6: when the decoder records a decorated value member named
`PRE`, a radix other than `Decimal` is a fatal decode error, and the
`Decimal` radix stores the integer parse of the `Value` attribute in
`values`. -/
theorem pre_member_radix_check (st : PreExtractor)
    (attrs : List (String × String)) (ms : List Member) (r raw : String)
    (n : Int)
    (hig : st.ignored_elements = none)
    (hms : st.tag_members = some ms)
    (hname : lookup attrs "Name" = some "PRE")
    (hradix : lookup attrs "Radix" = some r)
    (hvalue : lookup attrs "Value" = some raw)
    (hparse : parseInt raw = some n) :
    (r = "Decimal" →
      step st (XmlEvent.startE "DataValueMember" attrs) =
        Except.ok { st with
          tag_members := some (ms ++ [Member.named "PRE"]),
          values := insertAssoc st.values
            ⟨st.scope, st.tag_name, ms ++ [Member.named "PRE"]⟩ n }) ∧
    (r ≠ "Decimal" →
      step st (XmlEvent.startE "DataValueMember" attrs) =
        Except.error (PyError.valueError r)) := by
  constructor
  · intro hr
    subst hr
    simp [step, startElement, hig, dispatchStart, start_DataValueMember,
      append_named_member, getValueAttr, hname, hms, pre_get_value, hradix,
      hvalue, hparse]
  · intro hr
    simp [step, startElement, hig, dispatchStart, start_DataValueMember,
      append_named_member, getValueAttr, hname, hms, pre_get_value, hradix,
      hvalue, hparse, hr]

/-- Witness for C6 on a concrete `PRE` member with `Decimal` radix and
value `100`. -/
theorem pre_member_radix_check_witness :
    (("Decimal" : String) = "Decimal" →
      step (⟨none, some "Controller", some "T1", some [], false, false,
          none, [], []⟩ : PreExtractor)
        (XmlEvent.startE "DataValueMember"
          [("Name", "PRE"), ("Radix", "Decimal"), ("Value", "100")]) =
        Except.ok { (⟨none, some "Controller", some "T1", some [], false,
            false, none, [], []⟩ : PreExtractor) with
          tag_members := some ([] ++ [Member.named "PRE"]),
          values := insertAssoc []
            ⟨(some "Controller" : Option String), some "T1",
              [] ++ [Member.named "PRE"]⟩ 100 }) ∧
    (("Decimal" : String) ≠ "Decimal" →
      step (⟨none, some "Controller", some "T1", some [], false, false,
          none, [], []⟩ : PreExtractor)
        (XmlEvent.startE "DataValueMember"
          [("Name", "PRE"), ("Radix", "Decimal"), ("Value", "100")]) =
        Except.error (PyError.valueError "Decimal")) :=
  pre_member_radix_check
    ⟨none, some "Controller", some "T1", some [], false, false, none, [], []⟩
    [("Name", "PRE"), ("Radix", "Decimal"), ("Value", "100")]
    [] "Decimal" "100" 100 rfl rfl rfl rfl rfl rfl

theorem mem_insertAssoc {K V : Type} [DecidableEq K] {m : List (K × V)}
    {k : K} {v : V} {kv : K × V} (h : kv ∈ insertAssoc m k v) :
    kv.1 = k ∨ kv ∈ m := by
  induction m with
  | nil =>
    simp only [insertAssoc, List.mem_singleton] at h
    subst h
    exact Or.inl rfl
  | cons hd tl ih =>
    obtain ⟨k', w⟩ := hd
    unfold insertAssoc at h
    split at h
    · rcases List.mem_cons.mp h with rfl | hm
      · exact Or.inl (by assumption)
      · exact Or.inr (List.mem_cons_of_mem _ hm)
    · rcases List.mem_cons.mp h with rfl | hm
      · exact Or.inr (List.mem_cons_self _ _)
      · rcases ih hm with hk | hm'
        · exact Or.inl hk
        · exact Or.inr (List.mem_cons_of_mem _ hm')

/-- How one decoder step may change the output mappings: `values` grows
only by keys whose member sequence is non-empty and ends in the named
member `PRE`; `no_data` grows only by keys with an empty member
sequence. -/
def EntriesEvolve (st st' : PreExtractor) : Prop :=
  (st'.values = st.values ∨
    ∃ t v, t.members ≠ ([] : List Member) ∧
      t.members.getLast? = some (Member.named "PRE") ∧
      st'.values = insertAssoc st.values t v) ∧
  (st'.no_data = st.no_data ∨
    ∃ t d, t.members = ([] : List Member) ∧
      st'.no_data = insertAssoc st.no_data t d)

theorem evolve_of_unchanged {st st' : PreExtractor}
    (hp : st'.values = st.values ∧ st'.no_data = st.no_data) :
    EntriesEvolve st st' :=
  ⟨Or.inl hp.1, Or.inl hp.2⟩

theorem ignore_children_unchanged {st st' : PreExtractor}
    (h : ignore_children st = Except.ok st') :
    st'.values = st.values ∧ st'.no_data = st.no_data := by
  unfold ignore_children at h
  split at h
  · injection h with h; subst h; exact ⟨rfl, rfl⟩
  · simp at h

theorem start_Controller_unchanged {st st' : PreExtractor}
    (h : start_Controller st = Except.ok st') :
    st'.values = st.values ∧ st'.no_data = st.no_data := by
  unfold start_Controller at h
  injection h with h; subst h; exact ⟨rfl, rfl⟩

theorem start_Program_unchanged {st st' : PreExtractor}
    {attrs : List (String × String)}
    (h : start_Program st attrs = Except.ok st') :
    st'.values = st.values ∧ st'.no_data = st.no_data := by
  unfold start_Program at h
  split at h
  · simp at h
  · injection h with h; subst h; exact ⟨rfl, rfl⟩

theorem start_Tag_unchanged {st st' : PreExtractor}
    {attrs : List (String × String)}
    (h : start_Tag st attrs = Except.ok st') :
    st'.values = st.values ∧ st'.no_data = st.no_data := by
  unfold start_Tag at h
  split at h
  · simp at h
  · split at h
    · have h2 := ignore_children_unchanged h
      exact h2
    · split at h
      · simp at h
      · injection h with h; subst h; exact ⟨rfl, rfl⟩

theorem start_Data_unchanged {st st' : PreExtractor}
    {attrs : List (String × String)}
    (h : start_Data st attrs = Except.ok st') :
    st'.values = st.values ∧ st'.no_data = st.no_data := by
  unfold start_Data at h
  split at h
  · injection h with h; subst h
    refine ⟨?_, ?_⟩ <;> (split <;> rfl)
  · injection h with h; subst h; exact ⟨rfl, rfl⟩

theorem charactersHandler_unchanged {st st' : PreExtractor} {c : String}
    (h : charactersHandler st c = Except.ok st') :
    st'.values = st.values ∧ st'.no_data = st.no_data := by
  unfold charactersHandler at h
  split at h <;> (injection h with h; subst h; exact ⟨rfl, rfl⟩)

theorem start_Element_unchanged {st st' : PreExtractor}
    {attrs : List (String × String)}
    (h : start_Element st attrs = Except.ok st') :
    st'.values = st.values ∧ st'.no_data = st.no_data := by
  unfold start_Element at h
  split at h
  · simp at h
  · split at h
    · simp at h
    · split at h
      · simp at h
      · injection h with h; subst h; exact ⟨rfl, rfl⟩

theorem append_named_member_unchanged {st st' : PreExtractor}
    {attrs : List (String × String)}
    (h : append_named_member st attrs = Except.ok st') :
    st'.values = st.values ∧ st'.no_data = st.no_data := by
  unfold append_named_member at h
  split at h
  · simp at h
  · split at h
    · simp at h
    · injection h with h; subst h; exact ⟨rfl, rfl⟩

theorem end_named_member_unchanged {st st' : PreExtractor}
    (h : end_named_member st = Except.ok st') :
    st'.values = st.values ∧ st'.no_data = st.no_data := by
  unfold end_named_member at h
  split at h
  · simp at h
  · simp at h
  · injection h with h; subst h; exact ⟨rfl, rfl⟩

theorem end_Tag_entries {st st' : PreExtractor}
    (h : end_Tag st = Except.ok st') :
    st'.values = st.values ∧
      (st'.no_data = st.no_data ∨
        ∃ d, st'.no_data =
          insertAssoc st.no_data ⟨st.scope, st.tag_name, []⟩ d) := by
  unfold end_Tag at h
  split at h
  · split at h
    · simp at h
    · split at h
      · simp at h
      · injection h with h; subst h
        exact ⟨rfl, Or.inr ⟨_, rfl⟩⟩
  · injection h with h; subst h
    exact ⟨rfl, Or.inl rfl⟩

theorem end_Tag_evolve {st st' : PreExtractor}
    (h : end_Tag st = Except.ok st') : EntriesEvolve st st' := by
  obtain ⟨hv, hnd⟩ := end_Tag_entries h
  refine ⟨Or.inl hv, ?_⟩
  rcases hnd with hnd | ⟨d, hnd⟩
  · exact Or.inl hnd
  · exact Or.inr ⟨⟨st.scope, st.tag_name, []⟩, d, rfl, hnd⟩

theorem append_named_member_spec {st st' : PreExtractor}
    {attrs : List (String × String)}
    (h : append_named_member st attrs = Except.ok st') :
    ∃ n ms, lookup attrs "Name" = some n ∧ st.tag_members = some ms ∧
      st' = { st with tag_members := some (ms ++ [Member.named n]) } := by
  unfold append_named_member at h
  cases hg : getValueAttr attrs "Name" with
  | error e => simp [hg] at h
  | ok n =>
    simp only [hg] at h
    cases hm : st.tag_members with
    | none => simp [hm] at h
    | some ms =>
      simp only [hm] at h
      injection h with h
      have hgl : lookup attrs "Name" = some n := by
        unfold getValueAttr at hg
        cases hl : lookup attrs "Name" with
        | none => rw [hl] at hg; simp at hg
        | some n' =>
            rw [hl] at hg
            injection hg with hg
            rw [hg]
      exact ⟨n, ms, hgl, rfl, h.symm⟩

theorem start_DataValueMember_evolve {st st' : PreExtractor}
    {attrs : List (String × String)}
    (h : start_DataValueMember st attrs = Except.ok st') :
    EntriesEvolve st st' := by
  unfold start_DataValueMember at h
  cases ha : append_named_member st attrs with
  | error e => simp [ha] at h
  | ok st1 =>
    simp only [ha] at h
    obtain ⟨n, ms, hgl, hm, hst1⟩ := append_named_member_spec ha
    have hgn : getValueAttr attrs "Name" = Except.ok n := by
      unfold getValueAttr
      rw [hgl]
    simp only [hgn] at h
    by_cases hn : n = "PRE"
    · subst hn
      rw [if_pos rfl] at h
      subst hst1
      dsimp only at h
      cases hv : pre_get_value attrs with
      | error e => simp [hv] at h
      | ok v =>
        simp only [hv] at h
        injection h with h
        subst h
        refine ⟨Or.inr ⟨⟨st.scope, st.tag_name, ms ++ [Member.named "PRE"]⟩, v,
          by simp, by simp, rfl⟩, Or.inl rfl⟩
    · rw [if_neg hn] at h
      injection h with h
      subst h
      subst hst1
      exact evolve_of_unchanged ⟨rfl, rfl⟩

theorem dispatchStart_entries {st st' : PreExtractor} {name : String}
    {attrs : List (String × String)}
    (h : dispatchStart st name attrs = Except.ok st') :
    EntriesEvolve st st' := by
  unfold dispatchStart at h
  split at h
  · exact evolve_of_unchanged (ignore_children_unchanged h)
  · split at h
    · exact evolve_of_unchanged (ignore_children_unchanged h)
    · split at h
      · exact evolve_of_unchanged (start_Controller_unchanged h)
      · split at h
        · exact evolve_of_unchanged (start_Program_unchanged h)
        · split at h
          · exact evolve_of_unchanged (start_Tag_unchanged h)
          · split at h
            · exact evolve_of_unchanged (start_Data_unchanged h)
            · split at h
              · exact evolve_of_unchanged (start_Element_unchanged h)
              · split at h
                · exact evolve_of_unchanged (append_named_member_unchanged h)
                · split at h
                  · exact evolve_of_unchanged (append_named_member_unchanged h)
                  · split at h
                    · exact start_DataValueMember_evolve h
                    · injection h with h; subst h
                      exact evolve_of_unchanged ⟨rfl, rfl⟩

theorem dispatchEnd_entries {st st' : PreExtractor} {name : String}
    (h : dispatchEnd st name = Except.ok st') : EntriesEvolve st st' := by
  unfold dispatchEnd at h
  split at h
  · exact end_Tag_evolve h
  · split at h
    · exact evolve_of_unchanged (end_named_member_unchanged h)
    · split at h
      · exact evolve_of_unchanged (end_named_member_unchanged h)
      · split at h
        · exact evolve_of_unchanged (end_named_member_unchanged h)
        · split at h
          · exact evolve_of_unchanged (end_named_member_unchanged h)
          · injection h with h; subst h
            exact evolve_of_unchanged ⟨rfl, rfl⟩

theorem step_entries {st st' : PreExtractor} {ev : XmlEvent}
    (h : step st ev = Except.ok st') : EntriesEvolve st st' := by
  cases ev with
  | startE name attrs =>
    simp only [step, startElement] at h
    split at h
    · injection h with h; subst h
      exact evolve_of_unchanged ⟨rfl, rfl⟩
    · exact dispatchStart_entries h
  | endE name =>
    simp only [step, endElement] at h
    split at h
    · injection h with h; subst h
      exact evolve_of_unchanged ⟨rfl, rfl⟩
    · have h2 := dispatchEnd_entries h
      exact h2
    · have h2 := dispatchEnd_entries h
      exact h2
  | chars c =>
    simp only [step] at h
    exact evolve_of_unchanged (charactersHandler_unchanged h)

/-- The shape invariant on the decoder's two output mappings. -/
def OutputInv (st : PreExtractor) : Prop :=
  (∀ kv ∈ st.values, kv.1.members ≠ ([] : List Member) ∧
    kv.1.members.getLast? = some (Member.named "PRE")) ∧
  (∀ kv ∈ st.no_data, kv.1.members = ([] : List Member))

theorem outputInv_step {st st' : PreExtractor} {ev : XmlEvent}
    (hInv : OutputInv st) (h : step st ev = Except.ok st') : OutputInv st' := by
  obtain ⟨hv, hnd⟩ := step_entries h
  constructor
  · rcases hv with hv | ⟨t, v, htne, htlast, heq⟩
    · rw [hv]; exact hInv.1
    · intro kv hkv
      rw [heq] at hkv
      rcases mem_insertAssoc hkv with hk | hm
      · rw [hk]; exact ⟨htne, htlast⟩
      · exact hInv.1 kv hm
  · rcases hnd with hnd | ⟨t, d, ht, heq⟩
    · rw [hnd]; exact hInv.2
    · intro kv hkv
      rw [heq] at hkv
      rcases mem_insertAssoc hkv with hk | hm
      · rw [hk]; exact ht
      · exact hInv.2 kv hm

theorem run_outputInv (evs : List XmlEvent) :
    ∀ (st st' : PreExtractor), OutputInv st →
      run st evs = Except.ok st' → OutputInv st' := by
  induction evs with
  | nil =>
    intro st st' hInv hrun
    simp only [run, Except.ok.injEq] at hrun
    subst hrun
    exact hInv
  | cons ev rest ih =>
    intro st st' hInv hrun
    unfold run at hrun
    cases hs : step st ev with
    | error e => rw [hs] at hrun; simp at hrun
    | ok st1 =>
      rw [hs] at hrun
      exact ih st1 st' (outputInv_step hInv hs) hrun

/-- Claim C10: in any state the decoder reaches from its initial state,
every key of `values` has a non-empty member sequence ending in the named
member `PRE`, and every key of `no_data` has an empty member sequence. -/
theorem decoder_output_shapes (evs : List XmlEvent) (st' : PreExtractor)
    (hrun : run initExtractor evs = Except.ok st') :
    (∀ kv ∈ st'.values, kv.1.members ≠ ([] : List Member) ∧
      kv.1.members.getLast? = some (Member.named "PRE")) ∧
    (∀ kv ∈ st'.no_data, kv.1.members = ([] : List Member)) :=
  run_outputInv evs initExtractor st'
    ⟨by intro kv hkv; simp [initExtractor] at hkv,
      by intro kv hkv; simp [initExtractor] at hkv⟩ hrun

/-- Witness for C10 on a small stream that records one `PRE` value and one
raw payload. -/
theorem decoder_output_shapes_witness :
    (∀ kv ∈ (⟨none, some "Controller", some "T1", some [], true, false,
        none,
        [(⟨some "Controller", some "T1", [Member.named "PRE"]⟩, 7)],
        []⟩ : PreExtractor).values,
      kv.1.members ≠ ([] : List Member) ∧
        kv.1.members.getLast? = some (Member.named "PRE")) ∧
    (∀ kv ∈ (⟨none, some "Controller", some "T1", some [], true, false,
        none,
        [(⟨some "Controller", some "T1", [Member.named "PRE"]⟩, 7)],
        []⟩ : PreExtractor).no_data,
      kv.1.members = ([] : List Member)) :=
  decoder_output_shapes
    [XmlEvent.startE "Controller" [],
      XmlEvent.startE "Tags" [],
      XmlEvent.startE "Tag" [("TagType", "Base"), ("Name", "T1")],
      XmlEvent.startE "Data" [("Format", "Decorated")],
      XmlEvent.startE "DataValueMember"
        [("Name", "PRE"), ("Radix", "Decimal"), ("Value", "7")],
      XmlEvent.endE "DataValueMember",
      XmlEvent.endE "Data",
      XmlEvent.endE "Tag",
      XmlEvent.endE "Tags",
      XmlEvent.endE "Controller"]
    ⟨none, some "Controller", some "T1", some [], true, false, none,
      [(⟨some "Controller", some "T1", [Member.named "PRE"]⟩, 7)], []⟩
    rfl

/-! ## Type-closure engine (`src/diff/project.py`, `find_target_types`)

The catalog merges user-defined types and instruction (AOI) blocks: each
entry is a type name with its ordered member mapping (structure members
for user types, local tags for instruction blocks — the two attribute
names carry the same data). A member without a datatype models a bit
member (`AttributeError` in the source, silently skipped). Path-template
sets are modelled as duplicate-free lists built with `insertPath`;
`addPathsTo` models creating the containing type's entry on demand and
adding each new template to its set. The loop stops when a full pass
leaves the number of mapping keys (`len(target_types)`) unchanged; the
fuel `cat.length + 1` is spent only when a pass adds at least one key, so
it never runs out (`closure_loop_stable` below). -/

/-- Member description from the parsed text-encoding type catalog. -/
structure MemberSpec where
  datatype : Option String
  dim : Option (List Nat)
deriving DecidableEq

/-- A type catalog: user-defined types plus instruction local-tag blocks,
in iteration order. -/
abbrev Catalog := List (String × List (String × MemberSpec))

/-- A path template: member names and unresolved array shapes. -/
abbrev Template := List PElem

/-- The `target_types` mapping: type name to its set of path templates. -/
abbrev TTState := List (String × List Template)

/-- Model of `set.add` on a template set. -/
def insertPath (ps : List Template) (p : Template) : List Template :=
  if p ∈ ps then ps else ps ++ [p]

/-- Model of fetching-or-creating `target_types[type_name]` and adding
each new template to it. -/
def addPathsTo (tys : TTState) (tname : String) (newPaths : List Template) :
    TTState :=
  match tys with
  | [] => [(tname, newPaths.foldl insertPath [])]
  | (t, ps) :: rest =>
      if t = tname then (t, newPaths.foldl insertPath ps) :: rest
      else (t, ps) :: addPathsTo rest tname newPaths

/-- Processing one member of one catalog type: when the member's datatype
is already a closure key, prepend `[member_name] (+ [member_dim] when the
member is a non-trivially shaped array)` to every existing template of
that datatype and add the results under the containing type (the body of
the inner loop of `find_target_types`; `if member.dim:` is Python
truthiness, false for `None` and for an empty tuple). -/
def add_member_paths (tys : TTState) (tname mname : String)
    (spec : MemberSpec) : TTState :=
  match spec.datatype with
  | none => tys
  | some d =>
      match lookup tys d with
      | none => tys
      | some target_paths =>
          addPathsTo tys tname (target_paths.map fun path =>
            PElem.str mname ::
              (match spec.dim with
               | some dm => if dm.isEmpty then path else PElem.tup dm :: path
               | none => path))

/-- One catalog type's members, in order. -/
def process_member_list (tys : TTState) (tname : String)
    (members : List (String × MemberSpec)) : TTState :=
  members.foldl (fun t m => add_member_paths t tname m.1 m.2) tys

/-- One full pass over the catalog. -/
def closure_pass (cat : Catalog) (tys : TTState) : TTState :=
  cat.foldl (fun t e => process_member_list t e.1 e.2) tys

/-- The seed mapping of `find_target_types`. -/
def seedTypes : TTState :=
  [("TIMER", [[PElem.str "PRE"]]), ("COUNTER", [[PElem.str "PRE"]])]

/-- The `while True` loop: run passes until one leaves the key count
(`len(target_types)`) unchanged, returning the post-pass state. -/
def closure_loop (cat : Catalog) : Nat → TTState → TTState
  | 0, tys => tys
  | fuel + 1, tys =>
      if (closure_pass cat tys).length = tys.length then closure_pass cat tys
      else closure_loop cat fuel (closure_pass cat tys)

/-- Model of `find_target_types`. -/
def find_target_types (cat : Catalog) : TTState :=
  closure_loop cat (cat.length + 1) seedTypes

/-- Template-set equality of two template lists. -/
def pathSetEqB (p1 p2 : List Template) : Bool :=
  (p1.all fun p => decide (p ∈ p2)) && (p2.all fun p => decide (p ∈ p1))

/-- Equality of two closure mappings as maps from type names to template
sets. -/
def ttEquivB (m1 m2 : TTState) : Bool :=
  ((keys m1).all fun k =>
    match lookup m1 k, lookup m2 k with
    | some p1, some p2 => pathSetEqB p1 p2
    | _, _ => false) &&
  ((keys m2).all fun k => decide (k ∈ keys m1))

/-- A three-type chain in which every type also holds a direct `TIMER`
member, listed deepest first. -/
def chainCatalog : Catalog :=
  [("C3", [("m", ⟨some "C2", none⟩), ("t", ⟨some "TIMER", none⟩)]),
   ("C2", [("m", ⟨some "C1", none⟩), ("t", ⟨some "TIMER", none⟩)]),
   ("C1", [("t", ⟨some "TIMER", none⟩)])]

/-- Claim C1 counterexample: the same catalog in two iteration orders
yields different closure mappings. Iterated deepest-first, every type
becomes a key in the first pass (through its direct `TIMER` member), so
the second pass stops the loop having added the nested template
`m.t.PRE` to `C3` but never the deeper `m.m.t.PRE`; iterated
shallowest-first the full template set is found. The stop condition
compares `len(target_types)` — the number of keys — not the number of
(type, template) entries. -/
theorem find_target_types_order_dependent_cex :
    List.Perm chainCatalog chainCatalog.reverse ∧
      ttEquivB (find_target_types chainCatalog)
        (find_target_types chainCatalog.reverse) = false :=
  ⟨by decide, by decide⟩

/-- Derivability of a type name: it is a seed, or it has a member whose
datatype is derivable. The key set of the computed closure mapping is
exactly this set, for any catalog iteration order. -/
inductive Reaches (cat : Catalog) : String → Prop
  | timer : Reaches cat "TIMER"
  | counter : Reaches cat "COUNTER"
  | step (t d : String) (mems : List (String × MemberSpec)) (mname : String)
      (spec : MemberSpec) : (t, mems) ∈ cat → (mname, spec) ∈ mems →
      spec.datatype = some d → Reaches cat d → Reaches cat t

/-- All names a closure key can be. -/
def allNames (cat : Catalog) : List String :=
  "TIMER" :: "COUNTER" :: cat.map Prod.fst

theorem reaches_mem_allNames {cat : Catalog} {k : String}
    (h : Reaches cat k) : k ∈ allNames cat := by
  cases h with
  | timer => exact List.mem_cons_self _ _
  | counter => exact List.mem_cons_of_mem _ (List.mem_cons_self _ _)
  | step t d mems mname spec hcat _ _ _ =>
      exact List.mem_cons_of_mem _ (List.mem_cons_of_mem _
        (List.mem_map_of_mem Prod.fst hcat))

theorem keys_addPathsTo (tys : TTState) (tname : String)
    (ps : List Template) :
    keys (addPathsTo tys tname ps) =
      if tname ∈ keys tys then keys tys else keys tys ++ [tname] := by
  induction tys with
  | nil => simp [addPathsTo, keys]
  | cons hd rest ih =>
    obtain ⟨t, ps0⟩ := hd
    by_cases ht : t = tname
    · subst ht
      simp [addPathsTo, keys]
    · simp only [addPathsTo, if_neg ht]
      have hk : keys ((t, ps0) :: addPathsTo rest tname ps) =
          t :: keys (addPathsTo rest tname ps) := rfl
      have hk2 : keys ((t, ps0) :: rest) = t :: keys rest := rfl
      rw [hk, hk2, ih]
      by_cases hm : tname ∈ keys rest
      · rw [if_pos hm, if_pos (List.mem_cons_of_mem _ hm)]
      · have hcond : tname ∉ t :: keys rest := by
          intro hc
          rcases List.mem_cons.mp hc with hc | hc
          · exact ht hc.symm
          · exact hm hc
        rw [if_neg hm, if_neg hcond, List.cons_append]

theorem keys_addPathsTo_grows (tys : TTState) (tname : String)
    (ps : List Template) : keys tys <+: keys (addPathsTo tys tname ps) := by
  rw [keys_addPathsTo]
  split
  · exact List.prefix_rfl
  · exact List.prefix_append _ _

theorem mem_keys_addPathsTo_self (tys : TTState) (tname : String)
    (ps : List Template) : tname ∈ keys (addPathsTo tys tname ps) := by
  rw [keys_addPathsTo]
  split
  · assumption
  · simp

theorem keys_add_member_paths_grows (tys : TTState) (tname mname : String)
    (spec : MemberSpec) :
    keys tys <+: keys (add_member_paths tys tname mname spec) := by
  unfold add_member_paths
  split
  · exact List.prefix_rfl
  · split
    · exact List.prefix_rfl
    · exact keys_addPathsTo_grows _ _ _

theorem keys_add_member_paths_eq_or (tys : TTState) (tname mname : String)
    (spec : MemberSpec) :
    keys (add_member_paths tys tname mname spec) = keys tys ∨
      (keys (add_member_paths tys tname mname spec) = keys tys ++ [tname] ∧
        tname ∉ keys tys) := by
  unfold add_member_paths
  split
  · exact Or.inl rfl
  · split
    · exact Or.inl rfl
    · rw [keys_addPathsTo]
      split
      · exact Or.inl rfl
      · exact Or.inr ⟨rfl, by assumption⟩

theorem mem_keys_add_member_paths {tys : TTState} {tname mname : String}
    {spec : MemberSpec} {k : String}
    (h : k ∈ keys (add_member_paths tys tname mname spec)) :
    k ∈ keys tys ∨
      (k = tname ∧ ∃ d, spec.datatype = some d ∧ d ∈ keys tys) := by
  unfold add_member_paths at h
  split at h
  · exact Or.inl h
  · rename_i d hd
    split at h
    · exact Or.inl h
    · rename_i paths hl
      rw [keys_addPathsTo] at h
      split at h
      · exact Or.inl h
      · rcases List.mem_append.mp h with h1 | h1
        · exact Or.inl h1
        · have hk : k = tname := by simpa using h1
          exact Or.inr ⟨hk, d, hd, mem_keys_of_lookup_eq_some hl⟩

theorem add_member_paths_progress {tys : TTState} {tname mname : String}
    {spec : MemberSpec} {d : String} (hd : spec.datatype = some d)
    (hm : d ∈ keys tys) :
    tname ∈ keys (add_member_paths tys tname mname spec) := by
  obtain ⟨paths, hl⟩ := lookup_eq_some_of_mem_keys hm
  unfold add_member_paths
  simp only [hd, hl]
  exact mem_keys_addPathsTo_self _ _ _

theorem keys_add_member_paths_congr {tys1 tys2 : TTState}
    (tname mname : String) (spec : MemberSpec) (h : keys tys1 = keys tys2) :
    keys (add_member_paths tys1 tname mname spec) =
      keys (add_member_paths tys2 tname mname spec) := by
  unfold add_member_paths
  cases hd : spec.datatype with
  | none => exact h
  | some d =>
    cases hl1 : lookup tys1 d with
    | none =>
      have hl2 : lookup tys2 d = none := by
        cases hl2 : lookup tys2 d with
        | none => rfl
        | some p =>
            have : d ∈ keys tys1 := h ▸ mem_keys_of_lookup_eq_some hl2
            obtain ⟨v, hv⟩ := lookup_eq_some_of_mem_keys this
            rw [hv] at hl1
            cases hl1
      simp only [hl1, hl2]
      exact h
    | some p1 =>
      have hmem2 : d ∈ keys tys2 := h ▸ mem_keys_of_lookup_eq_some hl1
      obtain ⟨p2, hl2⟩ := lookup_eq_some_of_mem_keys hmem2
      simp only [hl1, hl2]
      rw [keys_addPathsTo, keys_addPathsTo, h]

theorem keys_members_foldl_grows (tname : String)
    (l : List (String × MemberSpec)) (tys : TTState) :
    keys tys <+:
      keys (List.foldl (fun t m => add_member_paths t tname m.1 m.2) tys l) := by
  induction l generalizing tys with
  | nil => exact List.prefix_rfl
  | cons m rest ih =>
    rw [List.foldl_cons]
    exact (keys_add_member_paths_grows tys tname m.1 m.2).trans (ih _)

theorem keys_process_member_list_grows (tys : TTState) (tname : String)
    (mems : List (String × MemberSpec)) :
    keys tys <+: keys (process_member_list tys tname mems) :=
  keys_members_foldl_grows tname mems tys

theorem keys_entries_foldl_grows (l : Catalog) (tys : TTState) :
    keys tys <+:
      keys (List.foldl (fun t e => process_member_list t e.1 e.2) tys l) := by
  induction l generalizing tys with
  | nil => exact List.prefix_rfl
  | cons e rest ih =>
    rw [List.foldl_cons]
    exact (keys_process_member_list_grows tys e.1 e.2).trans (ih _)

theorem keys_closure_pass_grows (cat : Catalog) (tys : TTState) :
    keys tys <+: keys (closure_pass cat tys) :=
  keys_entries_foldl_grows cat tys

theorem keys_members_foldl_congr (tname : String)
    (l : List (String × MemberSpec)) :
    ∀ {tys1 tys2 : TTState}, keys tys1 = keys tys2 →
      keys (List.foldl (fun t m => add_member_paths t tname m.1 m.2) tys1 l) =
        keys (List.foldl (fun t m => add_member_paths t tname m.1 m.2) tys2 l) := by
  induction l with
  | nil => intro tys1 tys2 h; exact h
  | cons m rest ih =>
    intro tys1 tys2 h
    rw [List.foldl_cons, List.foldl_cons]
    exact ih (keys_add_member_paths_congr tname m.1 m.2 h)

theorem keys_entries_foldl_congr (l : Catalog) :
    ∀ {tys1 tys2 : TTState}, keys tys1 = keys tys2 →
      keys (List.foldl (fun t e => process_member_list t e.1 e.2) tys1 l) =
        keys (List.foldl (fun t e => process_member_list t e.1 e.2) tys2 l) := by
  induction l with
  | nil => intro tys1 tys2 h; exact h
  | cons e rest ih =>
    intro tys1 tys2 h
    rw [List.foldl_cons, List.foldl_cons]
    exact ih (keys_members_foldl_congr e.1 e.2 h)

theorem keys_closure_pass_congr (cat : Catalog) {tys1 tys2 : TTState}
    (h : keys tys1 = keys tys2) :
    keys (closure_pass cat tys1) = keys (closure_pass cat tys2) :=
  keys_entries_foldl_congr cat h

theorem nodup_sub_members_foldl (cat : Catalog) (tname : String)
    (hname : tname ∈ allNames cat) (l : List (String × MemberSpec)) :
    ∀ tys : TTState, (keys tys).Nodup → (∀ k ∈ keys tys, k ∈ allNames cat) →
      (keys (List.foldl (fun t m => add_member_paths t tname m.1 m.2) tys l)).Nodup ∧
        (∀ k ∈ keys (List.foldl (fun t m => add_member_paths t tname m.1 m.2) tys l),
          k ∈ allNames cat) := by
  induction l with
  | nil => intro tys hnd hsub; exact ⟨hnd, hsub⟩
  | cons m rest ih =>
    intro tys hnd hsub
    rw [List.foldl_cons]
    rcases keys_add_member_paths_eq_or tys tname m.1 m.2 with heq | ⟨heq, hfresh⟩
    · exact ih _ (heq ▸ hnd) (heq ▸ hsub)
    · refine ih _ ?_ ?_
      · rw [heq]
        exact hnd.append (List.nodup_singleton _)
          (List.disjoint_singleton.mpr hfresh)
      · rw [heq]
        intro k hk
        rcases List.mem_append.mp hk with hk | hk
        · exact hsub k hk
        · rw [List.mem_singleton.mp hk]
          exact hname

theorem nodup_sub_entries_foldl (cat : Catalog) (l : Catalog)
    (hsub : ∀ e ∈ l, e ∈ cat) :
    ∀ tys : TTState, (keys tys).Nodup → (∀ k ∈ keys tys, k ∈ allNames cat) →
      (keys (List.foldl (fun t e => process_member_list t e.1 e.2) tys l)).Nodup ∧
        (∀ k ∈ keys (List.foldl (fun t e => process_member_list t e.1 e.2) tys l),
          k ∈ allNames cat) := by
  induction l with
  | nil => intro tys hnd hs; exact ⟨hnd, hs⟩
  | cons e rest ih =>
    intro tys hnd hs
    rw [List.foldl_cons]
    have hname : e.1 ∈ allNames cat :=
      List.mem_cons_of_mem _ (List.mem_cons_of_mem _
        (List.mem_map_of_mem Prod.fst (hsub e (List.mem_cons_self _ _))))
    have hstep := nodup_sub_members_foldl cat e.1 hname e.2 tys hnd hs
    exact ih (fun x hx => hsub x (List.mem_cons_of_mem _ hx)) _ hstep.1 hstep.2

theorem reaches_members_foldl (cat : Catalog) {tname : String}
    {mems : List (String × MemberSpec)} (hcat : (tname, mems) ∈ cat)
    (l : List (String × MemberSpec)) (hl : ∀ m ∈ l, m ∈ mems) :
    ∀ tys : TTState, (∀ k ∈ keys tys, Reaches cat k) →
      ∀ k ∈ keys (List.foldl (fun t m => add_member_paths t tname m.1 m.2) tys l),
        Reaches cat k := by
  induction l with
  | nil => intro tys hinv; exact hinv
  | cons m rest ih =>
    intro tys hinv
    rw [List.foldl_cons]
    refine ih (fun x hx => hl x (List.mem_cons_of_mem _ hx)) _ ?_
    intro k hk
    rcases mem_keys_add_member_paths hk with hk | ⟨hkeq, d, hd, hdk⟩
    · exact hinv k hk
    · rw [hkeq]
      exact Reaches.step tname d mems m.1 m.2 hcat
        (hl m (List.mem_cons_self _ _)) hd (hinv d hdk)

theorem reaches_entries_foldl (cat : Catalog) (l : Catalog)
    (hsub : ∀ e ∈ l, e ∈ cat) :
    ∀ tys : TTState, (∀ k ∈ keys tys, Reaches cat k) →
      ∀ k ∈ keys (List.foldl (fun t e => process_member_list t e.1 e.2) tys l),
        Reaches cat k := by
  induction l with
  | nil => intro tys hinv; exact hinv
  | cons e rest ih =>
    intro tys hinv
    rw [List.foldl_cons]
    refine ih (fun x hx => hsub x (List.mem_cons_of_mem _ hx)) _ ?_
    exact reaches_members_foldl cat (hsub e (List.mem_cons_self _ _)) e.2
      (fun m hm => hm) tys hinv

theorem reaches_closure_loop (cat : Catalog) :
    ∀ (fuel : Nat) (tys : TTState), (∀ k ∈ keys tys, Reaches cat k) →
      ∀ k ∈ keys (closure_loop cat fuel tys), Reaches cat k := by
  intro fuel
  induction fuel with
  | zero => intro tys hinv; exact hinv
  | succ fuel ih =>
    intro tys hinv
    simp only [closure_loop]
    have hinv' : ∀ k ∈ keys (closure_pass cat tys), Reaches cat k :=
      reaches_entries_foldl cat cat (fun e he => he) tys hinv
    by_cases hlen : (closure_pass cat tys).length = tys.length
    · rw [if_pos hlen]; exact hinv'
    · rw [if_neg hlen]; exact ih _ hinv'

theorem keys_closure_loop_grows (cat : Catalog) :
    ∀ (fuel : Nat) (tys : TTState),
      keys tys <+: keys (closure_loop cat fuel tys) := by
  intro fuel
  induction fuel with
  | zero => intro tys; exact List.prefix_rfl
  | succ fuel ih =>
    intro tys
    simp only [closure_loop]
    by_cases hlen : (closure_pass cat tys).length = tys.length
    · rw [if_pos hlen]; exact keys_closure_pass_grows cat tys
    · rw [if_neg hlen]
      exact (keys_closure_pass_grows cat tys).trans (ih _)

theorem keys_length_le (cat : Catalog) (tys : TTState)
    (hnd : (keys tys).Nodup) (hsub : ∀ k ∈ keys tys, k ∈ allNames cat) :
    tys.length ≤ cat.length + 2 := by
  have h1 : (keys tys).length = tys.length := List.length_map _ _
  have h2 : (keys tys).toFinset.card = (keys tys).length :=
    List.toFinset_card_of_nodup hnd
  have h3 : (keys tys).toFinset ⊆ (allNames cat).toFinset := by
    intro x hx
    rw [List.mem_toFinset] at hx ⊢
    exact hsub x hx
  have h4 := Finset.card_le_card h3
  have h5 := List.toFinset_card_le (allNames cat)
  have h6 : (allNames cat).length = cat.length + 2 := by
    simp [allNames]
  omega

theorem closure_loop_stable (cat : Catalog) :
    ∀ (fuel : Nat) (tys : TTState),
      (keys tys).Nodup → (∀ k ∈ keys tys, k ∈ allNames cat) →
      cat.length + 3 ≤ fuel + tys.length →
      keys (closure_pass cat (closure_loop cat fuel tys)) =
        keys (closure_loop cat fuel tys) := by
  intro fuel
  induction fuel with
  | zero =>
    intro tys hnd hsub hbound
    exfalso
    have := keys_length_le cat tys hnd hsub
    omega
  | succ fuel ih =>
    intro tys hnd hsub hbound
    simp only [closure_loop]
    by_cases hlen : (closure_pass cat tys).length = tys.length
    · rw [if_pos hlen]
      have hpre := keys_closure_pass_grows cat tys
      have hkeq : keys (closure_pass cat tys) = keys tys := by
        refine (hpre.eq_of_length ?_).symm
        simp only [keys, List.length_map, hlen]
      exact keys_closure_pass_congr cat hkeq
    · rw [if_neg hlen]
      have hstep := nodup_sub_entries_foldl cat cat (fun e he => he) tys hnd hsub
      refine ih _ hstep.1 hstep.2 ?_
      have hle : tys.length ≤ (closure_pass cat tys).length := by
        have := (keys_closure_pass_grows cat tys).length_le
        simpa [keys, List.length_map] using this
      omega

theorem pass_stable_closed (cat : Catalog) (tys : TTState)
    (hstable : keys (closure_pass cat tys) = keys tys)
    {tname : String} {mems : List (String × MemberSpec)}
    (hcat : (tname, mems) ∈ cat) {mname : String} {spec : MemberSpec}
    (hmem : (mname, spec) ∈ mems) {d : String}
    (hd : spec.datatype = some d) (hdk : d ∈ keys tys) :
    tname ∈ keys tys := by
  obtain ⟨l1, l2, hsplit⟩ := List.append_of_mem hcat
  obtain ⟨m1, m2, hmsplit⟩ := List.append_of_mem hmem
  have hpass : closure_pass cat tys =
      List.foldl (fun t e => process_member_list t e.1 e.2)
        (process_member_list
          (List.foldl (fun t e => process_member_list t e.1 e.2) tys l1)
          tname mems) l2 := by
    unfold closure_pass
    rw [hsplit, List.foldl_append, List.foldl_cons]
  have hmemsplit : process_member_list
      (List.foldl (fun t e => process_member_list t e.1 e.2) tys l1)
      tname mems =
      List.foldl (fun t m => add_member_paths t tname m.1 m.2)
        (add_member_paths
          (List.foldl (fun t m => add_member_paths t tname m.1 m.2)
            (List.foldl (fun t e => process_member_list t e.1 e.2) tys l1) m1)
          tname mname spec) m2 := by
    unfold process_member_list
    rw [hmsplit, List.foldl_append, List.foldl_cons]
  generalize hS1 : List.foldl (fun t e => process_member_list t e.1 e.2) tys l1 = s1
    at hpass hmemsplit
  generalize hU1 : List.foldl (fun t m => add_member_paths t tname m.1 m.2) s1 m1 = u1
    at hmemsplit
  generalize hA : add_member_paths u1 tname mname spec = A at hmemsplit
  generalize hS2 : process_member_list s1 tname mems = s2 at hpass hmemsplit
  have hp1 : keys tys <+: keys s1 := by
    rw [← hS1]; exact keys_entries_foldl_grows l1 tys
  have hp2 : keys s1 <+: keys s2 := by
    rw [← hS2]; exact keys_process_member_list_grows s1 tname mems
  have hp3 : keys s2 <+: keys tys := by
    rw [← hstable, hpass]
    exact keys_entries_foldl_grows l2 s2
  have he1 : keys s1 = keys tys :=
    (hp2.trans hp3).sublist.antisymm hp1.sublist
  have he2 : keys s2 = keys tys :=
    hp3.sublist.antisymm (hp1.trans hp2).sublist
  have hpu : keys s1 <+: keys u1 := by
    rw [← hU1]; exact keys_members_foldl_grows tname m1 s1
  have hpA : keys u1 <+: keys A := by
    rw [← hA]; exact keys_add_member_paths_grows u1 tname mname spec
  have hpA2 : keys A <+: keys s2 := by
    rw [hmemsplit]; exact keys_members_foldl_grows tname m2 A
  have heu : keys u1 = keys tys := by
    have h1 : keys tys <+: keys u1 := he1 ▸ hpu
    have h2 : keys u1 <+: keys tys := he2 ▸ (hpA.trans hpA2)
    exact h2.sublist.antisymm h1.sublist
  have heA : keys A = keys tys := by
    have h1 : keys tys <+: keys A := (he1 ▸ hpu).trans hpA
    have h2 : keys A <+: keys tys := he2 ▸ hpA2
    exact h2.sublist.antisymm h1.sublist
  have hA_mem : tname ∈ keys A := by
    rw [← hA]
    exact add_member_paths_progress hd (heu ▸ hdk)
  rw [← heA]
  exact hA_mem

theorem find_target_types_stable (cat : Catalog) :
    keys (closure_pass cat (find_target_types cat)) =
      keys (find_target_types cat) := by
  refine closure_loop_stable cat (cat.length + 1) seedTypes ?_ ?_ ?_
  · decide
  · intro k hk
    have : k = "TIMER" ∨ k = "COUNTER" := by
      simpa [seedTypes, keys] using hk
    rcases this with rfl | rfl
    · exact List.mem_cons_self _ _
    · exact List.mem_cons_of_mem _ (List.mem_cons_self _ _)
  · simp [seedTypes]

theorem mem_keys_find_target_types_iff (cat : Catalog) (k : String) :
    k ∈ keys (find_target_types cat) ↔ Reaches cat k := by
  constructor
  · intro h
    refine reaches_closure_loop cat (cat.length + 1) seedTypes ?_ k h
    intro x hx
    have : x = "TIMER" ∨ x = "COUNTER" := by
      simpa [seedTypes, keys] using hx
    rcases this with rfl | rfl
    · exact Reaches.timer
    · exact Reaches.counter
  · intro h
    induction h with
    | timer =>
      refine (keys_closure_loop_grows cat (cat.length + 1) seedTypes).subset ?_
      simp [seedTypes, keys]
    | counter =>
      refine (keys_closure_loop_grows cat (cat.length + 1) seedTypes).subset ?_
      simp [seedTypes, keys]
    | step t d mems mname spec hcat hmem hd _ ih =>
      exact pass_stable_closed cat (find_target_types cat)
        (find_target_types_stable cat) hcat hmem hd ih

theorem reaches_perm {c1 c2 : Catalog} (hp : List.Perm c1 c2) {k : String}
    (h : Reaches c1 k) : Reaches c2 k := by
  induction h with
  | timer => exact Reaches.timer
  | counter => exact Reaches.counter
  | step t d mems mname spec hcat hmem hd _ ih =>
    exact Reaches.step t d mems mname spec (hp.subset hcat) hmem hd ih

/-- Claim C1 (amended): for any two iteration orders of the same type
catalog, the fixed point computed by `find_target_types` has the same set
of type-name keys (though the template sets under those keys may differ,
see the counterexample), and the loop stops only when a full pass adds no
new type-name key: one further full pass over the returned mapping leaves
its key set unchanged. -/
theorem find_target_types_keys_order_independent (c1 c2 : Catalog)
    (hp : List.Perm c1 c2) :
    (∀ t, t ∈ keys (find_target_types c1) ↔ t ∈ keys (find_target_types c2)) ∧
      keys (closure_pass c1 (find_target_types c1)) =
        keys (find_target_types c1) := by
  refine ⟨fun t => ?_, find_target_types_stable c1⟩
  rw [mem_keys_find_target_types_iff, mem_keys_find_target_types_iff]
  exact ⟨reaches_perm hp, reaches_perm hp.symm⟩

/-- Witness for the amended C1 at the chain catalog and its reversal. -/
theorem find_target_types_keys_order_independent_witness :
    ("C3" ∈ keys (find_target_types chainCatalog) ↔
      "C3" ∈ keys (find_target_types chainCatalog.reverse)) ∧
      keys (closure_pass chainCatalog (find_target_types chainCatalog)) =
        keys (find_target_types chainCatalog) :=
  ⟨(find_target_types_keys_order_independent chainCatalog
      chainCatalog.reverse (by decide)).1 "C3",
    (find_target_types_keys_order_independent chainCatalog
      chainCatalog.reverse (by decide)).2⟩

end TagDiff
